import Mathlib

/-!
# Verification of the jsonpath-rust facade and evaluator contract

This development embeds the result-shaping facade of `src/lib.rs`
(`find_slice`, `find`, `find_as_path`, `JsonPathInst::find_slice`) together
with a model of the path-instance evaluator, and proves the documented
properties: the `NoValue` sentinel protocol, path faithfulness, the shape of
canonical path strings, determinism, and the refinement between the two
`find_slice` surfaces.
-/

namespace JsonpathRust

/-- JSON value: a tagged union of null, booleans, numbers, strings, ordered
arrays and ordered objects (insertion order preserved, keys unique).
Numbers are modelled as integers; none of the verified claims depends on
the numeric representation. -/
inductive Value where
  | null : Value
  | bool (b : Bool) : Value
  | num (n : Int) : Value
  | str (s : String) : Value
  | arr (elems : List Value) : Value
  | obj (entries : List (String × Value)) : Value

/-- Type `JsonPathValue` from `src/lib.rs`: the match record produced by
evaluation.  Borrowed references are modelled by owned values. -/
inductive JsonPathValue where
  | Slice (v : Value) (path : String)
  | NewValue (v : Value)
  | NoValue

/-- Path string for an array index, from `jsp_idx` in `src/lib.rs`:
`format!("{}[{}]", prefix, idx)`. -/
def jsp_idx (pre : String) (idx : Nat) : String :=
  pre ++ "[" ++ toString idx ++ "]"

/-- Path string for an object member, from `jsp_obj` in `src/lib.rs`:
`format!("{}.['{}']", prefix, key)`. -/
def jsp_obj (pre : String) (key : String) : String :=
  pre ++ ".['" ++ key ++ "']"

namespace JsonPathValue

/-- Method `JsonPathValue::has_value` from `src/lib.rs`: `!matches!(self, NoValue)`. -/
def has_value : JsonPathValue → Bool
  | .NoValue => false
  | _ => true

/-- Method `JsonPathValue::to_data` from `src/lib.rs`; `Data::default()` for
`serde_json::Value` is `Null`. -/
def to_data : JsonPathValue → Value
  | .Slice r _ => r
  | .NewValue v => v
  | .NoValue => Value.null

/-- Method `JsonPathValue::to_path` from `src/lib.rs`. -/
def to_path : JsonPathValue → Option String
  | .Slice _ p => some p
  | _ => none

/-- Method `JsonPathValue::from_root` from `src/lib.rs`. -/
def from_root (d : Value) : JsonPathValue :=
  .Slice d "$"

/-- Method `JsonPathValue::only_no_value` from `src/lib.rs`:
`!input.is_empty() && input.iter().filter(|v| v.has_value()).count() == 0`. -/
def only_no_value (input : List JsonPathValue) : Bool :=
  !input.isEmpty && (input.filter has_value).length == 0

end JsonPathValue

/-- First-match lookup of a key in an object's entry list (object keys are
unique by the data model, §3.1 of the spec). -/
def lookupKey : List (String × Value) → String → Option Value
  | [], _ => none
  | (k', v) :: rest, k => if k' = k then some v else lookupKey rest k

/-- Pair each list element with its index, starting at `i`. -/
def withIdx {α : Type} : List α → Nat → List (Nat × α)
  | [], _ => []
  | x :: xs, i => (i, x) :: withIdx xs (i + 1)

theorem mem_withIdx {α : Type} {xs : List α} {i : Nat} {jx : Nat × α}
    (h : jx ∈ withIdx xs i) : jx.2 ∈ xs := by
  induction xs generalizing i with
  | nil => simp [withIdx] at h
  | cons y ys ih =>
    simp only [withIdx, List.mem_cons] at h
    rcases h with h | h
    · subst h; exact List.mem_cons_self _ _
    · exact List.mem_cons_of_mem _ (ih h)

/-- The keys of an object's entry list are pairwise distinct. -/
def keysNodup : List (String × Value) → Bool
  | [] => true
  | (k, _) :: rest => !(rest.any (fun e => e.1 == k)) && keysNodup rest

theorem sizeOf_mem_arr {x : Value} {xs : List Value} (h : x ∈ xs) :
    sizeOf x < sizeOf (Value.arr xs) := by
  have := List.sizeOf_lt_of_mem h
  simp only [Value.arr.sizeOf_spec]
  omega

theorem sizeOf_mem_obj {e : String × Value} {es : List (String × Value)}
    (h : e ∈ es) : sizeOf e.2 < sizeOf (Value.obj es) := by
  have h1 := List.sizeOf_lt_of_mem h
  have h2 : sizeOf e = 1 + sizeOf e.1 + sizeOf e.2 := rfl
  simp only [Value.obj.sizeOf_spec]
  omega

mutual

/-- Well-formed document: every object in the tree has pairwise-distinct
keys, as required by the data model (§3.1: "keys unique"). -/
def wf : Value → Bool
  | Value.arr xs => wfList xs
  | Value.obj es => keysNodup es && wfObj es
  | _ => true

/-- All array elements are well-formed. -/
def wfList : List Value → Bool
  | [] => true
  | x :: xs => wf x && wfList xs

/-- All object entry values are well-formed. -/
def wfObj : List (String × Value) → Bool
  | [] => true
  | e :: es => wf e.2 && wfObj es

end

/-- One literal resolution step of a canonical path: an object-member
lookup or an array-index lookup. -/
inductive Step where
  | key (k : String)
  | idx (i : Nat)

/-- Apply one literal step to a value. -/
def stepApply (v : Value) : Step → Option Value
  | .key k => match v with
      | .obj es => lookupKey es k
      | _ => none
  | .idx i => match v with
      | .arr xs => xs.get? i
      | _ => none

/-- Resolve a list of literal steps against a document. -/
def resolve : List Step → Value → Option Value
  | [], v => some v
  | s :: ss, v => match stepApply v s with
      | some u => resolve ss u
      | none => none

/-- Render one step onto a path prefix, with the builders of `src/lib.rs`. -/
def stepStr (p : String) : Step → String
  | .key k => jsp_obj p k
  | .idx i => jsp_idx p i

/-- Render a list of steps onto a path prefix. -/
def renderFrom (p : String) (ss : List Step) : String :=
  ss.foldl stepStr p

/-- Render a list of steps as a canonical path string from the root `"$"`. -/
def render (ss : List Step) : String :=
  renderFrom "$" ss

/-- The set of canonical path strings (§3.2 of the spec): the root is `"$"`,
a member access appends `.['<key>']` and an index access appends `[<n>]`,
via the builders `jsp_obj` and `jsp_idx` of `src/lib.rs`. -/
inductive Canon : String → Prop where
  | root : Canon "$"
  | member (p : String) (k : String) : Canon p → Canon (jsp_obj p k)
  | index (p : String) (n : Nat) : Canon p → Canon (jsp_idx p n)

/-- Modelled from the spec: one compiled path segment (§3.4).  The crate's
parser and path-instance modules are not part of the sources at hand, so the
AST is taken from the spec's segment list.  A filter predicate is kept
abstract as a boolean function of the document root and the candidate; the
verified properties hold for every predicate, in particular for the
spec's filter engine. -/
inductive Segment where
  | root
  | field (name : String)
  | fields (names : List String)
  | index (n : Int)
  | indices (ns : List Int)
  | slice (s e : Option Int) (st : Int)
  | wildcard
  | descent
  | descentField (name : String)
  | filterPred (φ : Value → Value → Bool)
  | fnLength

/-- Clamp a possibly negative slice bound into `[0, L]`, Python style:
negative indices count from the end. -/
def normIdx (L : Nat) (i : Int) : Nat :=
  let j := if i < 0 then i + L else i
  if j < 0 then 0 else if (L : Int) < j then L else j.toNat

/-- Modelled from the spec: the indices selected by the slice operator
`[s:e:step]` (§4.2): Python-style half-open slice, `step` defaults to 1,
`s` to 0, `e` to the array length; a zero step is rejected at compile time
and selects nothing here. -/
def sliceIdxList (L : Nat) (s e : Option Int) (st : Int) : List Nat :=
  if 0 < st then
    let a := normIdx L (s.getD 0)
    let b := normIdx L (e.getD L)
    (List.range L).filter (fun j => a ≤ j && j < b && (j - a) % st.toNat == 0)
  else if st < 0 then
    let a := normIdx L (s.getD 0)
    let b := normIdx L (e.getD L)
    ((List.range L).filter
      (fun j => b ≤ j && j ≤ a && (a - j) % (-st).toNat == 0)).reverse
  else []

/-- Modelled from the spec: the descent operator `..` (§4.2): the node
itself and all transitive descendants in pre-order, arrays by index,
objects by insertion order, each with its accumulated path. -/
def descentAll : Value → String → List (Value × String)
  | Value.arr xs, p =>
      (Value.arr xs, p) ::
        (withIdx xs 0).attach.flatMap
          (fun ix => descentAll ix.1.2 (jsp_idx p ix.1.1))
  | Value.obj es, p =>
      (Value.obj es, p) ::
        es.attach.flatMap (fun e => descentAll e.1.2 (jsp_obj p e.1.1))
  | v, p => [(v, p)]
termination_by v _ => sizeOf v
decreasing_by
  · exact sizeOf_mem_arr (mem_withIdx ix.2)
  · exact sizeOf_mem_obj e.2

/-- Modelled from the spec: one compiled segment's `find` operation
(§4.2's segment-semantics table), i.e. the uniform contract
`find(input: MatchRecord) -> [MatchRecord]` of a path-instance node.
`root` is the document root (carried as context for `$` and for filter
predicates).  A `NoValue` input is propagated, a `NewValue` input yields
nothing (as in `JsonPathValue::map_slice` of `src/lib.rs`). -/
def applySeg (root : Value) (seg : Segment) (r : JsonPathValue) :
    List JsonPathValue :=
  match r with
  | .NoValue => [.NoValue]
  | .NewValue _ => []
  | .Slice v p =>
    match seg with
    | .root => [.Slice root "$"]
    | .field k =>
        match v with
        | .obj es =>
            match lookupKey es k with
            | some u => [.Slice u (jsp_obj p k)]
            | none => [.NoValue]
        | _ => [.NoValue]
    | .fields ks =>
        match v with
        | .obj es =>
            ks.filterMap fun k =>
              (lookupKey es k).map fun u => JsonPathValue.Slice u (jsp_obj p k)
        | _ => [.NoValue]
    | .index n =>
        match v with
        | .arr xs =>
            if 0 ≤ n then
              match xs.get? n.toNat with
              | some u => [.Slice u (jsp_idx p n.toNat)]
              | none => [.NoValue]
            else [.NoValue]
        | _ => [.NoValue]
    | .indices ns =>
        match v with
        | .arr xs =>
            ns.filterMap fun n =>
              if 0 ≤ n then
                (xs.get? n.toNat).map fun u =>
                  JsonPathValue.Slice u (jsp_idx p n.toNat)
              else none
        | _ => [.NoValue]
    | .slice s e st =>
        match v with
        | .arr xs =>
            (sliceIdxList xs.length s e st).filterMap fun j =>
              (xs.get? j).map fun u => JsonPathValue.Slice u (jsp_idx p j)
        | _ => [.NoValue]
    | .wildcard =>
        match v with
        | .arr xs =>
            (withIdx xs 0).map fun ix =>
              JsonPathValue.Slice ix.2 (jsp_idx p ix.1)
        | .obj es =>
            es.map fun e => JsonPathValue.Slice e.2 (jsp_obj p e.1)
        | _ => [.NoValue]
    | .descent =>
        (descentAll v p).map fun t => JsonPathValue.Slice t.1 t.2
    | .descentField k =>
        (descentAll v p).filterMap fun t =>
          match t.1 with
          | .obj es =>
              (lookupKey es k).map fun u =>
                JsonPathValue.Slice u (jsp_obj t.2 k)
          | _ => none
    | .filterPred φ =>
        match v with
        | .arr xs =>
            (withIdx xs 0).filterMap fun ix =>
              if φ root ix.2 then
                some (JsonPathValue.Slice ix.2 (jsp_idx p ix.1))
              else none
        | .obj es =>
            if φ root (Value.obj es) then [.Slice (Value.obj es) p] else []
        | _ => [.NoValue]
    | .fnLength =>
        match v with
        | .arr xs => [.NewValue (Value.num xs.length)]
        | .str s => [.NewValue (Value.num s.length)]
        | _ => [.NoValue]

/-- Modelled from the spec: the whole compiled path is the left fold of the
segment chain over the initial record `Slice(root, "$")` (§4.2), the output
of segment `i` feeding segment `i+1` by flat-mapping.  This models
`json_path_instance(&path.inner, json).find(JsonPathValue::from_root(json))`. -/
def runPath (path : List Segment) (json : Value) : List JsonPathValue :=
  path.foldl (fun acc seg => acc.flatMap (applySeg json seg))
    [JsonPathValue.from_root json]

/-- Function `find_slice` from `src/lib.rs`: keep the records with a value; if none
remain, return `vec![NoValue]`. -/
def find_slice (path : List Segment) (json : Value) : List JsonPathValue :=
  let has_v := (runPath path json).filter JsonPathValue.has_value
  if has_v.isEmpty then [JsonPathValue.NoValue] else has_v

/-- Function `find` from `src/lib.rs`: materialize the slice as a JSON array, or
`Null` when the slice is only `NoValue`. -/
def find (path : List Segment) (json : Value) : Value :=
  let slice := find_slice path json
  if !slice.isEmpty then
    if JsonPathValue.only_no_value slice then Value.null
    else
      Value.arr ((slice.filter JsonPathValue.has_value).map
        JsonPathValue.to_data)
  else Value.arr []

/-- Function `find_as_path` from `src/lib.rs`: the array of the paths of the found
records (`flat_map(|v| v.to_path())`, each converted to a JSON string). -/
def find_as_path (path : List Segment) (json : Value) : Value :=
  Value.arr (((find_slice path json).filterMap JsonPathValue.to_path).map
    Value.str)

/-- Type `JsonPtr` from `src/lib.rs`: the record type returned by the method
`JsonPathInst::find_slice`; it has no `NoValue` variant. -/
inductive JsonPtr where
  | Slice (v : Value)
  | NewValue (v : Value)

/-- The body of the `map` closure in `JsonPathInst::find_slice`
(`src/lib.rs`): `NoValue` hits the `unreachable!` branch, modelled as
`none`. -/
def toPtr : JsonPathValue → Option JsonPtr
  | .Slice v _ => some (JsonPtr.Slice v)
  | .NewValue v => some (JsonPtr.NewValue v)
  | .NoValue => none

/-- Collect the mapped records; `none` as soon as the `unreachable!`
branch would execute. -/
def ptrList : List JsonPathValue → Option (List JsonPtr)
  | [] => some []
  | r :: rest =>
      match toPtr r with
      | some x => (ptrList rest).map fun l => x :: l
      | none => none

/-- Method `JsonPathInst::find_slice` from `src/lib.rs`: the evaluator output,
filtered to records with a value, mapped to `JsonPtr`; reaching the
`unreachable!` arm is modelled as `none`. -/
def inst_find_slice (path : List Segment) (json : Value) :
    Option (List JsonPtr) :=
  ptrList ((runPath path json).filter JsonPathValue.has_value)

/-! ## Lookup and well-formedness lemmas -/

theorem lookupKey_mem {es : List (String × Value)} {k : String} {u : Value}
    (h : lookupKey es k = some u) : (k, u) ∈ es := by
  induction es with
  | nil => simp [lookupKey] at h
  | cons e rest ih =>
    obtain ⟨k', v⟩ := e
    by_cases hk : k' = k
    · subst hk
      have hv : v = u := by simpa [lookupKey] using h
      subst hv
      exact List.mem_cons_self _ _
    · simp only [lookupKey, if_neg hk] at h
      exact List.mem_cons_of_mem _ (ih h)

theorem keysNodup_lookup {es : List (String × Value)} {k : String} {x : Value}
    (hn : keysNodup es = true) (hm : (k, x) ∈ es) : lookupKey es k = some x := by
  induction es with
  | nil => simp at hm
  | cons e rest ih =>
    obtain ⟨k', v⟩ := e
    simp only [keysNodup, Bool.and_eq_true, Bool.not_eq_true'] at hn
    rcases List.mem_cons.mp hm with h | h
    · obtain ⟨hk, hv⟩ := Prod.mk.injEq .. ▸ h
      subst hk; subst hv
      simp [lookupKey]
    · by_cases hk : k' = k
      · subst hk
        exfalso
        have : rest.any (fun e => e.1 == k') = true :=
          List.any_eq_true.mpr ⟨(k', x), h, by simp⟩
        rw [this] at hn
        exact absurd hn.1 (by simp)
      · simp only [lookupKey, if_neg hk]
        exact ih hn.2 h

theorem wfList_mem {xs : List Value} {x : Value}
    (hw : wfList xs = true) (hm : x ∈ xs) : wf x = true := by
  induction xs with
  | nil => simp at hm
  | cons y ys ih =>
    simp only [wfList, Bool.and_eq_true] at hw
    rcases List.mem_cons.mp hm with h | h
    · exact h ▸ hw.1
    · exact ih hw.2 h

theorem wfObj_mem {es : List (String × Value)} {e : String × Value}
    (hw : wfObj es = true) (hm : e ∈ es) : wf e.2 = true := by
  induction es with
  | nil => simp at hm
  | cons f fs ih =>
    simp only [wfObj, Bool.and_eq_true] at hw
    rcases List.mem_cons.mp hm with h | h
    · exact h ▸ hw.1
    · exact ih hw.2 h

theorem stepApply_wf {v u : Value} {s : Step}
    (hw : wf v = true) (h : stepApply v s = some u) : wf u = true := by
  cases s with
  | key k =>
    cases v with
    | obj es =>
      simp only [wf, Bool.and_eq_true] at hw
      exact wfObj_mem hw.2 (lookupKey_mem h)
    | null => simp [stepApply] at h
    | bool b => simp [stepApply] at h
    | num n => simp [stepApply] at h
    | str s => simp [stepApply] at h
    | arr xs => simp [stepApply] at h
  | idx i =>
    cases v with
    | arr xs =>
      simp only [stepApply] at h
      exact wfList_mem (by simpa [wf] using hw) (List.get?_mem h)
    | null => simp [stepApply] at h
    | bool b => simp [stepApply] at h
    | num n => simp [stepApply] at h
    | str s => simp [stepApply] at h
    | obj es => simp [stepApply] at h

theorem resolve_wf {ss : List Step} {d v : Value}
    (hw : wf d = true) (h : resolve ss d = some v) : wf v = true := by
  induction ss generalizing d with
  | nil =>
    simp only [resolve, Option.some.injEq] at h
    exact h ▸ hw
  | cons s ss ih =>
    simp only [resolve] at h
    cases hs : stepApply d s with
    | none => rw [hs] at h; exact absurd h (by simp)
    | some u =>
      rw [hs] at h
      exact ih (stepApply_wf hw hs) h

/-! ## Index enumeration and path-composition lemmas -/

theorem withIdx_get? {α : Type} {xs : List α} {i j : Nat} {x : α}
    (h : (j, x) ∈ withIdx xs i) : i ≤ j ∧ xs.get? (j - i) = some x := by
  induction xs generalizing i with
  | nil => simp [withIdx] at h
  | cons y ys ih =>
    simp only [withIdx, List.mem_cons] at h
    rcases h with h | h
    · obtain ⟨hj, hx⟩ := Prod.mk.injEq .. ▸ h
      subst hj; subst hx
      simp
    · obtain ⟨hle, hget⟩ := ih h
      refine ⟨by omega, ?_⟩
      have hj : j - i = (j - (i + 1)) + 1 := by omega
      rw [hj]
      simpa using hget

theorem withIdx_zero_get? {α : Type} {xs : List α} {j : Nat} {x : α}
    (h : (j, x) ∈ withIdx xs 0) : xs.get? j = some x := by
  have := withIdx_get? h
  simpa using this.2

theorem resolve_append (ss ts : List Step) (d : Value) :
    resolve (ss ++ ts) d =
      match resolve ss d with
      | some v => resolve ts v
      | none => none := by
  induction ss generalizing d with
  | nil => simp [resolve]
  | cons s ss ih =>
    simp only [List.cons_append, resolve]
    cases stepApply d s with
    | none => simp
    | some u => simpa using ih u

theorem resolve_step_extend {ss : List Step} {d v u : Value} {s : Step}
    (h : resolve ss d = some v) (hs : stepApply v s = some u) :
    resolve (ss ++ [s]) d = some u := by
  rw [resolve_append, h]
  simp [resolve, hs]

theorem renderFrom_append (p : String) (ss ts : List Step) :
    renderFrom p (ss ++ ts) = renderFrom (renderFrom p ss) ts :=
  List.foldl_append ..

theorem render_snoc (ss : List Step) (s : Step) :
    render (ss ++ [s]) = stepStr (render ss) s := by
  simp [render, renderFrom_append, renderFrom]

/-! ## Faithfulness of the descent traversal -/

theorem descent_faithful_aux (n : Nat) : ∀ (v : Value), sizeOf v ≤ n →
    ∀ (q : String), wf v = true → ∀ u s, (u, s) ∈ descentAll v q →
    ∃ tt : List Step, s = renderFrom q tt ∧ resolve tt v = some u := by
  induction n with
  | zero =>
    intro v hv
    exact absurd hv (by cases v <;> simp)
  | succ n ih =>
    intro v hsz q hw u s hm
    cases v with
    | arr xs =>
      simp only [descentAll, List.mem_cons, List.mem_flatMap,
        List.mem_attach, true_and] at hm
      rcases hm with h | h
      · obtain ⟨hu, hs⟩ := Prod.mk.injEq .. ▸ h
        exact ⟨[], by simp [renderFrom, hs], by simp [resolve, hu]⟩
      · obtain ⟨⟨⟨i, x⟩, hwi⟩, hmem⟩ := h
        have hget : xs.get? i = some x := withIdx_zero_get? hwi
        have hxmem : x ∈ xs := List.get?_mem hget
        have hszx : sizeOf x ≤ n := by
          have := sizeOf_mem_arr hxmem
          simp only [Value.arr.sizeOf_spec] at this hsz ⊢
          have := List.sizeOf_lt_of_mem hxmem
          omega
        have hwx : wf x = true := wfList_mem (by simpa [wf] using hw) hxmem
        obtain ⟨tt, hs', hres⟩ := ih x hszx (jsp_idx q i) hwx u s hmem
        refine ⟨Step.idx i :: tt, ?_, ?_⟩
        · simpa [renderFrom, stepStr] using hs'
        · simp only [resolve, stepApply, hget]
          exact hres
    | obj es =>
      simp only [descentAll, List.mem_cons, List.mem_flatMap,
        List.mem_attach, true_and] at hm
      rcases hm with h | h
      · obtain ⟨hu, hs⟩ := Prod.mk.injEq .. ▸ h
        exact ⟨[], by simp [renderFrom, hs], by simp [resolve, hu]⟩
      · obtain ⟨⟨⟨k, x⟩, hke⟩, hmem⟩ := h
        simp only [wf, Bool.and_eq_true] at hw
        have hlk : lookupKey es k = some x := keysNodup_lookup hw.1 hke
        have hszx : sizeOf x ≤ n := by
          have := sizeOf_mem_obj hke
          simp only [Value.obj.sizeOf_spec] at this hsz ⊢
          omega
        have hwx : wf x = true := wfObj_mem hw.2 hke
        obtain ⟨tt, hs', hres⟩ := ih x hszx (jsp_obj q k) hwx u s hmem
        refine ⟨Step.key k :: tt, ?_, ?_⟩
        · simpa [renderFrom, stepStr] using hs'
        · simp only [resolve, stepApply, hlk]
          exact hres
    | null =>
      simp only [descentAll, List.mem_singleton] at hm
      obtain ⟨hu, hs⟩ := Prod.mk.injEq .. ▸ hm
      exact ⟨[], by simp [renderFrom, hs], by simp [resolve, hu]⟩
    | bool b =>
      simp only [descentAll, List.mem_singleton] at hm
      obtain ⟨hu, hs⟩ := Prod.mk.injEq .. ▸ hm
      exact ⟨[], by simp [renderFrom, hs], by simp [resolve, hu]⟩
    | num m =>
      simp only [descentAll, List.mem_singleton] at hm
      obtain ⟨hu, hs⟩ := Prod.mk.injEq .. ▸ hm
      exact ⟨[], by simp [renderFrom, hs], by simp [resolve, hu]⟩
    | str t =>
      simp only [descentAll, List.mem_singleton] at hm
      obtain ⟨hu, hs⟩ := Prod.mk.injEq .. ▸ hm
      exact ⟨[], by simp [renderFrom, hs], by simp [resolve, hu]⟩

theorem descent_faithful {v : Value} {q : String} (hw : wf v = true)
    {u : Value} {s : String} (hm : (u, s) ∈ descentAll v q) :
    ∃ tt : List Step, s = renderFrom q tt ∧ resolve tt v = some u :=
  descent_faithful_aux (sizeOf v) v le_rfl q hw u s hm

/-! ## Faithfulness of every evaluation step -/

/-- A match record is faithful to the document `d` when, if it is a
`Slice(v, p)`, the path `p` renders some list of literal steps that resolve
on `d` to exactly `v`. -/
def Faithful (d : Value) : JsonPathValue → Prop
  | .Slice v p => ∃ ss : List Step, p = render ss ∧ resolve ss d = some v
  | _ => True

theorem Faithful_slice_extend {d v u : Value} {ss : List Step} {p : String}
    (hp : p = render ss) (hres : resolve ss d = some v) (s : Step)
    (hs : stepApply v s = some u) :
    Faithful d (JsonPathValue.Slice u (stepStr p s)) :=
  ⟨ss ++ [s], by rw [render_snoc, hp], resolve_step_extend hres hs⟩

theorem Faithful_slice_chain {d v u : Value} {ss tt : List Step}
    {p s : String} (hp : p = render ss) (hres : resolve ss d = some v)
    (hs : s = renderFrom p tt) (hres2 : resolve tt v = some u) :
    Faithful d (JsonPathValue.Slice u s) := by
  refine ⟨ss ++ tt, ?_, ?_⟩
  · rw [hs, hp]
    simp [render, renderFrom_append]
  · rw [resolve_append, hres]
    exact hres2

theorem applySeg_faithful {d : Value} (hw : wf d = true) (seg : Segment)
    {r : JsonPathValue} (hr : Faithful d r) :
    ∀ r' ∈ applySeg d seg r, Faithful d r' := by
  intro r' hm
  cases r with
  | NoValue =>
    simp only [applySeg, List.mem_singleton] at hm
    subst hm; trivial
  | NewValue v => simp [applySeg] at hm
  | Slice v p =>
    obtain ⟨ss, hp, hres⟩ := hr
    have hwv : wf v = true := resolve_wf hw hres
    cases seg with
    | root =>
      simp only [applySeg, List.mem_singleton] at hm
      subst hm
      exact ⟨[], rfl, rfl⟩
    | field k =>
      cases v with
      | obj es =>
        simp only [applySeg] at hm
        cases hlk : lookupKey es k with
        | some u =>
          rw [hlk] at hm
          have := List.mem_singleton.mp hm
          subst this
          exact Faithful_slice_extend hp hres (Step.key k) hlk
        | none =>
          rw [hlk] at hm
          have := List.mem_singleton.mp hm
          subst this; trivial
      | null =>
        simp only [applySeg, List.mem_singleton] at hm; subst hm; trivial
      | bool b =>
        simp only [applySeg, List.mem_singleton] at hm; subst hm; trivial
      | num m =>
        simp only [applySeg, List.mem_singleton] at hm; subst hm; trivial
      | str t =>
        simp only [applySeg, List.mem_singleton] at hm; subst hm; trivial
      | arr xs =>
        simp only [applySeg, List.mem_singleton] at hm; subst hm; trivial
    | fields ks =>
      cases v with
      | obj es =>
        simp only [applySeg, List.mem_filterMap] at hm
        obtain ⟨k, _, hk⟩ := hm
        obtain ⟨u, hlk, hru⟩ := Option.map_eq_some'.mp hk
        subst hru
        exact Faithful_slice_extend hp hres (Step.key k) hlk
      | null =>
        simp only [applySeg, List.mem_singleton] at hm; subst hm; trivial
      | bool b =>
        simp only [applySeg, List.mem_singleton] at hm; subst hm; trivial
      | num m =>
        simp only [applySeg, List.mem_singleton] at hm; subst hm; trivial
      | str t =>
        simp only [applySeg, List.mem_singleton] at hm; subst hm; trivial
      | arr xs =>
        simp only [applySeg, List.mem_singleton] at hm; subst hm; trivial
    | index n =>
      cases v with
      | arr xs =>
        simp only [applySeg] at hm
        by_cases hn : 0 ≤ n
        · rw [if_pos hn] at hm
          cases hget : xs.get? n.toNat with
          | some u =>
            rw [hget] at hm
            have := List.mem_singleton.mp hm
            subst this
            exact Faithful_slice_extend hp hres (Step.idx n.toNat) hget
          | none =>
            rw [hget] at hm
            have := List.mem_singleton.mp hm
            subst this; trivial
        · rw [if_neg hn] at hm
          have := List.mem_singleton.mp hm
          subst this; trivial
      | null =>
        simp only [applySeg, List.mem_singleton] at hm; subst hm; trivial
      | bool b =>
        simp only [applySeg, List.mem_singleton] at hm; subst hm; trivial
      | num m =>
        simp only [applySeg, List.mem_singleton] at hm; subst hm; trivial
      | str t =>
        simp only [applySeg, List.mem_singleton] at hm; subst hm; trivial
      | obj es =>
        simp only [applySeg, List.mem_singleton] at hm; subst hm; trivial
    | indices ns =>
      cases v with
      | arr xs =>
        simp only [applySeg, List.mem_filterMap] at hm
        obtain ⟨n, _, hk⟩ := hm
        by_cases hn : 0 ≤ n
        · rw [if_pos hn] at hk
          obtain ⟨u, hget, hru⟩ := Option.map_eq_some'.mp hk
          subst hru
          exact Faithful_slice_extend hp hres (Step.idx n.toNat) hget
        · rw [if_neg hn] at hk
          exact absurd hk (by simp)
      | null =>
        simp only [applySeg, List.mem_singleton] at hm; subst hm; trivial
      | bool b =>
        simp only [applySeg, List.mem_singleton] at hm; subst hm; trivial
      | num m =>
        simp only [applySeg, List.mem_singleton] at hm; subst hm; trivial
      | str t =>
        simp only [applySeg, List.mem_singleton] at hm; subst hm; trivial
      | obj es =>
        simp only [applySeg, List.mem_singleton] at hm; subst hm; trivial
    | slice s e st =>
      cases v with
      | arr xs =>
        simp only [applySeg, List.mem_filterMap] at hm
        obtain ⟨j, _, hk⟩ := hm
        obtain ⟨u, hget, hru⟩ := Option.map_eq_some'.mp hk
        subst hru
        exact Faithful_slice_extend hp hres (Step.idx j) hget
      | null =>
        simp only [applySeg, List.mem_singleton] at hm; subst hm; trivial
      | bool b =>
        simp only [applySeg, List.mem_singleton] at hm; subst hm; trivial
      | num m =>
        simp only [applySeg, List.mem_singleton] at hm; subst hm; trivial
      | str t =>
        simp only [applySeg, List.mem_singleton] at hm; subst hm; trivial
      | obj es =>
        simp only [applySeg, List.mem_singleton] at hm; subst hm; trivial
    | wildcard =>
      cases v with
      | arr xs =>
        simp only [applySeg, List.mem_map] at hm
        obtain ⟨⟨i, x⟩, hwi, hru⟩ := hm
        subst hru
        exact Faithful_slice_extend hp hres (Step.idx i) (withIdx_zero_get? hwi)
      | obj es =>
        simp only [applySeg, List.mem_map] at hm
        obtain ⟨⟨k, x⟩, hke, hru⟩ := hm
        subst hru
        simp only [wf, Bool.and_eq_true] at hwv
        exact Faithful_slice_extend hp hres (Step.key k)
          (keysNodup_lookup hwv.1 hke)
      | null =>
        simp only [applySeg, List.mem_singleton] at hm; subst hm; trivial
      | bool b =>
        simp only [applySeg, List.mem_singleton] at hm; subst hm; trivial
      | num m =>
        simp only [applySeg, List.mem_singleton] at hm; subst hm; trivial
      | str t =>
        simp only [applySeg, List.mem_singleton] at hm; subst hm; trivial
    | descent =>
      simp only [applySeg, List.mem_map] at hm
      obtain ⟨⟨u, s⟩, hd, hru⟩ := hm
      subst hru
      obtain ⟨tt, hs', hres2⟩ := descent_faithful hwv hd
      exact Faithful_slice_chain hp hres hs' hres2
    | descentField k =>
      simp only [applySeg, List.mem_filterMap] at hm
      obtain ⟨⟨u, s⟩, hd, hk⟩ := hm
      cases u with
      | obj fs =>
        obtain ⟨u', hlk, hru⟩ := Option.map_eq_some'.mp hk
        subst hru
        obtain ⟨tt, hs', hres2⟩ := descent_faithful hwv hd
        obtain ⟨ss', hp', hres'⟩ := Faithful_slice_chain hp hres hs' hres2
        exact Faithful_slice_extend hp' hres' (Step.key k) hlk
      | null => exact absurd hk (by simp)
      | bool b => exact absurd hk (by simp)
      | num m => exact absurd hk (by simp)
      | str t => exact absurd hk (by simp)
      | arr xs => exact absurd hk (by simp)
    | filterPred φ =>
      cases v with
      | arr xs =>
        simp only [applySeg, List.mem_filterMap] at hm
        obtain ⟨⟨i, x⟩, hwi, hk⟩ := hm
        by_cases hφ : φ d x
        · rw [if_pos hφ] at hk
          have hru := Option.some.inj hk
          subst hru
          exact Faithful_slice_extend hp hres (Step.idx i) (withIdx_zero_get? hwi)
        · rw [if_neg hφ] at hk
          exact absurd hk (by simp)
      | obj es =>
        simp only [applySeg] at hm
        by_cases hφ : φ d (Value.obj es)
        · rw [if_pos hφ] at hm
          have := List.mem_singleton.mp hm
          subst this
          exact ⟨ss, hp, hres⟩
        · rw [if_neg hφ] at hm
          simp at hm
      | null =>
        simp only [applySeg, List.mem_singleton] at hm; subst hm; trivial
      | bool b =>
        simp only [applySeg, List.mem_singleton] at hm; subst hm; trivial
      | num m =>
        simp only [applySeg, List.mem_singleton] at hm; subst hm; trivial
      | str t =>
        simp only [applySeg, List.mem_singleton] at hm; subst hm; trivial
    | fnLength =>
      cases v with
      | arr xs =>
        simp only [applySeg, List.mem_singleton] at hm; subst hm; trivial
      | str t =>
        simp only [applySeg, List.mem_singleton] at hm; subst hm; trivial
      | null =>
        simp only [applySeg, List.mem_singleton] at hm; subst hm; trivial
      | bool b =>
        simp only [applySeg, List.mem_singleton] at hm; subst hm; trivial
      | num m =>
        simp only [applySeg, List.mem_singleton] at hm; subst hm; trivial
      | obj es =>
        simp only [applySeg, List.mem_singleton] at hm; subst hm; trivial

theorem runPath_faithful {d : Value} (hw : wf d = true)
    (path : List Segment) : ∀ r ∈ runPath path d, Faithful d r := by
  suffices h : ∀ (segs : List Segment) (acc : List JsonPathValue),
      (∀ r ∈ acc, Faithful d r) →
      ∀ r ∈ segs.foldl (fun acc seg => acc.flatMap (applySeg d seg)) acc,
        Faithful d r by
    refine h path [JsonPathValue.from_root d] ?_
    intro r hr
    have := List.mem_singleton.mp hr
    subst this
    exact ⟨[], rfl, rfl⟩
  intro segs
  induction segs with
  | nil => exact fun acc hacc r hr => hacc r hr
  | cons seg rest ih =>
    intro acc hacc r hr
    refine ih _ ?_ r hr
    intro r' hr'
    obtain ⟨a, ha, hmem⟩ := List.mem_flatMap.mp hr'
    exact applySeg_faithful hw seg (hacc a ha) r' hmem

theorem find_slice_slice_faithful {path : List Segment} {d v : Value}
    {p : String} (hw : wf d = true)
    (hm : JsonPathValue.Slice v p ∈ find_slice path d) :
    ∃ ss : List Step, p = render ss ∧ resolve ss d = some v := by
  simp only [find_slice] at hm
  by_cases he : ((runPath path d).filter JsonPathValue.has_value).isEmpty
  · rw [if_pos he] at hm
    have := List.mem_singleton.mp hm
    exact absurd this (by simp)
  · rw [if_neg he] at hm
    have hmem := (List.mem_filter.mp hm).1
    exact runPath_faithful hw path _ hmem

theorem canon_renderFrom (ss : List Step) :
    ∀ p : String, Canon p → Canon (renderFrom p ss) := by
  induction ss with
  | nil => exact fun p h => h
  | cons s tt ih =>
    intro p h
    have : renderFrom p (s :: tt) = renderFrom (stepStr p s) tt := rfl
    rw [this]
    refine ih _ ?_
    cases s with
    | key k => exact Canon.member p k h
    | idx i => exact Canon.index p i h

theorem canon_render (ss : List Step) : Canon (render ss) :=
  canon_renderFrom ss "$" Canon.root

/-! ## Facade lemmas -/

theorem filter_has_value_idem (l : List JsonPathValue) :
    (l.filter JsonPathValue.has_value).filter JsonPathValue.has_value
      = l.filter JsonPathValue.has_value :=
  List.filter_eq_self.mpr fun _ hr => (List.mem_filter.mp hr).2

theorem find_slice_eq_of_empty {path : List Segment} {d : Value}
    (he : (runPath path d).filter JsonPathValue.has_value = []) :
    find_slice path d = [JsonPathValue.NoValue] := by
  simp only [find_slice]
  rw [if_pos (by simp [he])]

theorem find_slice_eq_of_nonempty {path : List Segment} {d : Value}
    (he : (runPath path d).filter JsonPathValue.has_value ≠ []) :
    find_slice path d = (runPath path d).filter JsonPathValue.has_value := by
  simp only [find_slice]
  rw [if_neg (by simpa [List.isEmpty_iff] using he)]

theorem find_slice_eq_novalue_iff (path : List Segment) (d : Value) :
    find_slice path d = [JsonPathValue.NoValue] ↔
      (runPath path d).filter JsonPathValue.has_value = [] := by
  by_cases he : (runPath path d).filter JsonPathValue.has_value = []
  · simp [find_slice_eq_of_empty he, he]
  · rw [find_slice_eq_of_nonempty he]
    constructor
    · intro h
      exfalso
      have hmem : JsonPathValue.NoValue ∈
          (runPath path d).filter JsonPathValue.has_value := by
        rw [h]; exact List.mem_singleton.mpr rfl
      have := (List.mem_filter.mp hmem).2
      simp [JsonPathValue.has_value] at this
    · intro h
      exact absurd h he

theorem only_no_value_filter_false {l : List JsonPathValue}
    (hne : l.filter JsonPathValue.has_value ≠ []) :
    JsonPathValue.only_no_value (l.filter JsonPathValue.has_value) = false := by
  simp only [JsonPathValue.only_no_value, filter_has_value_idem]
  have h1 : (l.filter JsonPathValue.has_value).length ≠ 0 :=
    fun h => hne (List.length_eq_zero.mp h)
  simp [List.isEmpty_iff, hne, h1]

theorem find_of_empty {path : List Segment} {d : Value}
    (he : (runPath path d).filter JsonPathValue.has_value = []) :
    find path d = Value.null := by
  simp only [find, find_slice_eq_of_empty he]
  rfl

theorem find_of_nonempty {path : List Segment} {d : Value}
    (he : (runPath path d).filter JsonPathValue.has_value ≠ []) :
    find path d = Value.arr
      (((runPath path d).filter JsonPathValue.has_value).map
        JsonPathValue.to_data) := by
  simp only [find, find_slice_eq_of_nonempty he]
  rw [if_pos (by simpa [List.isEmpty_iff] using he),
    if_neg (by simp [only_no_value_filter_false he]), filter_has_value_idem]

theorem ptrList_filter (l : List JsonPathValue) :
    ptrList (l.filter JsonPathValue.has_value) = some (l.filterMap toPtr) := by
  induction l with
  | nil => rfl
  | cons r t ih =>
    cases r with
    | NoValue => simpa [JsonPathValue.has_value, toPtr] using ih
    | Slice v p => simp [JsonPathValue.has_value, toPtr, ptrList, ih]
    | NewValue v => simp [JsonPathValue.has_value, toPtr, ptrList, ih]

theorem filterMap_toPtr_nil_iff (l : List JsonPathValue) :
    l.filterMap toPtr = [] ↔ l.filter JsonPathValue.has_value = [] := by
  induction l with
  | nil => simp
  | cons r t ih =>
    cases r with
    | NoValue => simpa [toPtr, JsonPathValue.has_value] using ih
    | Slice v p => simp [toPtr, JsonPathValue.has_value]
    | NewValue v => simp [toPtr, JsonPathValue.has_value]

/-- The spec's phrase "`R` with NoValue filtered out", stated independently
of the code's `has_value` helper. -/
def droppingNoValue (res : List JsonPathValue) : List JsonPathValue :=
  res.filter fun r =>
    match r with
    | .NoValue => false
    | _ => true

theorem droppingNoValue_eq (res : List JsonPathValue) :
    droppingNoValue res = res.filter JsonPathValue.has_value :=
  List.filter_congr fun r _ => by cases r <;> rfl

/-! ## The claims -/

/-- C1: for every compiled path `q` and document `d`, `find(q, d)` returns
JSON `null` if and only if `find_slice(q, d)` returns exactly the
one-element vector `[NoValue]`. -/
theorem C1_find_null_iff_novalue_sentinel (path : List Segment) (d : Value) :
    find path d = Value.null ↔
      find_slice path d = [JsonPathValue.NoValue] := by
  rw [find_slice_eq_novalue_iff]
  by_cases he : (runPath path d).filter JsonPathValue.has_value = []
  · simp [find_of_empty he, he]
  · rw [find_of_nonempty he]
    simp [he]

/-- C2: `find_slice` returns the evaluator's output with all `NoValue`
records removed, except that when nothing with a value remains it returns
exactly `[NoValue]` as the distinguished no-match signal; consequently it
never returns an empty vector. -/
theorem C2_find_slice_filtered_with_sentinel (path : List Segment)
    (d : Value) :
    0 < (find_slice path d).length ∧
    find_slice path d =
      (if (droppingNoValue (runPath path d)).isEmpty then
        [JsonPathValue.NoValue]
      else droppingNoValue (runPath path d)) := by
  rw [droppingNoValue_eq]
  constructor
  · by_cases he : (runPath path d).filter JsonPathValue.has_value = []
    · simp [find_slice_eq_of_empty he]
    · rw [find_slice_eq_of_nonempty he]
      exact List.length_pos.mpr he
  · rfl

/-- C3: every `Slice(v, p)` in `find_slice` output is path-faithful: the
canonical path `p` renders a list of literal member/index steps whose
application to the document `d` reaches a node equal to `v`. -/
theorem C3_path_faithfulness (path : List Segment) (d v : Value)
    (p : String) (hw : wf d = true)
    (hm : JsonPathValue.Slice v p ∈ find_slice path d) :
    ∃ ss : List Step, p = render ss ∧ resolve ss d = some v :=
  find_slice_slice_faithful hw hm

/-- Witness for C3 at a concrete query and document. -/
theorem C3_path_faithfulness_witness :
    wf (Value.obj [("a", Value.num 5)]) = true ∧
    JsonPathValue.Slice (Value.num 5) "$.['a']" ∈
      find_slice [Segment.root, Segment.field "a"]
        (Value.obj [("a", Value.num 5)]) ∧
    ∃ ss : List Step, "$.['a']" = render ss ∧
      resolve ss (Value.obj [("a", Value.num 5)]) = some (Value.num 5) :=
  ⟨rfl, List.mem_singleton.mpr rfl,
    C3_path_faithfulness [Segment.root, Segment.field "a"]
      (Value.obj [("a", Value.num 5)]) (Value.num 5) "$.['a']" rfl
      (List.mem_singleton.mpr rfl)⟩

/-- C4: `find_as_path` returns a JSON array containing, in result order,
one string per `Slice` record of `find_slice` (its canonical path);
`NewValue` records contribute no element. -/
theorem C4_find_as_path_slice_paths (path : List Segment) (d : Value) :
    find_as_path path d = Value.arr
      ((find_slice path d).filterMap fun r =>
        match r with
        | JsonPathValue.Slice _ p => some (Value.str p)
        | _ => none) := by
  simp only [find_as_path]
  congr 1
  rw [List.map_filterMap]
  exact List.filterMap_congr fun r _ => by cases r <;> rfl

/-- C5: every path string carried by a `Slice` record is canonical: it is
`"$"` or is built from `"$"` by appending `.['<key>']` for a member access
and `[<n>]` for an index access. -/
theorem C5_canonical_path_strings (path : List Segment) (d v : Value)
    (p : String) (hw : wf d = true)
    (hm : JsonPathValue.Slice v p ∈ find_slice path d) :
    Canon p := by
  obtain ⟨ss, hp, _⟩ := find_slice_slice_faithful hw hm
  exact hp ▸ canon_render ss

/-- Witness for C5 at a concrete query and document. -/
theorem C5_canonical_path_strings_witness : Canon "$.['a']" :=
  C5_canonical_path_strings [Segment.root, Segment.field "a"]
    (Value.obj [("a", Value.num 5)]) (Value.num 5) "$.['a']" rfl
    (List.mem_singleton.mpr rfl)

/-- C6: `to_path` returns `Some(p)` iff the record is `Slice(_, p)`; for
`NewValue` and `NoValue` it returns `None`. -/
theorem C6_to_path_only_for_slice (r : JsonPathValue) (p : String) :
    (JsonPathValue.to_path r = some p ↔
      ∃ v, r = JsonPathValue.Slice v p) ∧
    (∀ v, JsonPathValue.to_path (JsonPathValue.NewValue v) = none) ∧
    JsonPathValue.to_path JsonPathValue.NoValue = none := by
  refine ⟨?_, fun v => rfl, rfl⟩
  cases r with
  | Slice v q =>
    constructor
    · intro h
      exact ⟨v, by rw [Option.some.inj h]⟩
    · rintro ⟨v', hv⟩
      injection hv with h1 h2
      rw [JsonPathValue.to_path, h2]
  | NewValue v => simp [JsonPathValue.to_path]
  | NoValue => simp [JsonPathValue.to_path]

/-- C7: via `find`, the query `$.length()` yields `null` on any object,
`[3]` on the document `[[1],[2],[3]]`, and `null` on the integer `1`. -/
theorem C7_root_length_semantics :
    (∀ es, find [Segment.root, Segment.fnLength] (Value.obj es)
      = Value.null) ∧
    find [Segment.root, Segment.fnLength]
      (Value.arr [Value.arr [Value.num 1], Value.arr [Value.num 2],
        Value.arr [Value.num 3]]) = Value.arr [Value.num 3] ∧
    find [Segment.root, Segment.fnLength] (Value.num 1) = Value.null :=
  ⟨fun _ => rfl, rfl, rfl⟩

/-- C8: evaluation is deterministic: any two invocations of `find_slice`
(and of `find` and `find_as_path`) on the same compiled path and document
yield identical results. -/
theorem C8_determinism (path : List Segment) (d : Value)
    (s1 s2 : List JsonPathValue) (v1 v2 q1 q2 : Value)
    (h1 : s1 = find_slice path d) (h2 : s2 = find_slice path d)
    (h3 : v1 = find path d) (h4 : v2 = find path d)
    (h5 : q1 = find_as_path path d) (h6 : q2 = find_as_path path d) :
    s1 = s2 ∧ v1 = v2 ∧ q1 = q2 :=
  ⟨h1.trans h2.symm, h3.trans h4.symm, h5.trans h6.symm⟩

/-- Witness for C8 at a concrete query and document. -/
theorem C8_determinism_witness :
    find_slice [Segment.root] Value.null
        = find_slice [Segment.root] Value.null ∧
    find [Segment.root] Value.null = find [Segment.root] Value.null ∧
    find_as_path [Segment.root] Value.null
        = find_as_path [Segment.root] Value.null :=
  C8_determinism [Segment.root] Value.null _ _ _ _ _ _
    rfl rfl rfl rfl rfl rfl

/-- C9: `find` never returns an empty JSON array: its result is either
JSON `null` or a non-empty JSON array. -/
theorem C9_find_never_empty_array (path : List Segment) (d : Value) :
    find path d = Value.null ∨
    ∃ v vs, find path d = Value.arr (v :: vs) := by
  by_cases he : (runPath path d).filter JsonPathValue.has_value = []
  · exact Or.inl (find_of_empty he)
  · right
    rw [find_of_nonempty he]
    obtain ⟨x, t, hxt⟩ := List.exists_cons_of_ne_nil he
    rw [hxt]
    exact ⟨JsonPathValue.to_data x, t.map JsonPathValue.to_data, by simp⟩

/-- C10: the method `JsonPathInst::find_slice` agrees with the free
function `find_slice` except for the no-match sentinel: its output is the
`has_value` records of the evaluator output, in order, with `Slice(v, p)`
mapped to `JsonPtr::Slice(v)` and `NewValue(v)` to `JsonPtr::NewValue(v)`;
it returns the empty vector exactly when the free function returns
`[NoValue]`, and the `unreachable!` branch is never executed (the result
is always `some`). -/
theorem C10_inst_find_slice_refines (path : List Segment) (d : Value) :
    inst_find_slice path d = some ((runPath path d).filterMap toPtr) ∧
    (find_slice path d = [JsonPathValue.NoValue] ↔
      (runPath path d).filterMap toPtr = []) :=
  ⟨ptrList_filter _,
    (find_slice_eq_novalue_iff path d).trans
      (filterMap_toPtr_nil_iff _).symm⟩

end JsonpathRust
